import Mathlib

/-!
Verification development for the mutational-signature module
`wgs_analysis/snvs/mutsig.py`.

The Python module is embedded shallowly:

* strings are Lean `String`s, with Python `str.translate` / `str.endswith`
  modelled on the underlying character lists;
* pandas tables are lists of rows; `groupby(col).size()` becomes `countP`,
  the `>100` filter becomes `List.filter`, and the sorted key index of a
  `groupby`/`unstack` becomes sorting of the deduplicated key list;
* the fixed-basis topic-model transform delegated to the external `lda`
  library (declared an external collaborator by the design document, which
  fixes its contract: inference-only iterative updates with per-row
  normalisation over a pinned basis) is embedded over `ℚ` as
  `transformSingle` below;
* the Mann-Whitney U routine of `scipy.stats` (also external) is kept as an
  uninterpreted parameter `mw`: the module under verification only decides
  how the data is partitioned and passed to it.

All numeric computation is over `ℚ`; every definition is executable.
-/

/-- Character translation table of `str.maketrans('ACTGactg','TGACtgac')`:
`A↔T`, `C↔G` in both cases, all other characters unchanged. -/
def complementChar (c : Char) : Char :=
  if c = 'A' then 'T'
  else if c = 'C' then 'G'
  else if c = 'T' then 'A'
  else if c = 'G' then 'C'
  else if c = 'a' then 't'
  else if c = 'c' then 'g'
  else if c = 't' then 'a'
  else if c = 'g' then 'c'
  else c

/-- `reverse_complement(sequence)`: reverse the string, then translate each
character through the complement table (`sequence[::-1].translate(...)`). -/
def reverseComplement (s : String) : String :=
  String.mk (s.data.reverse.map complementChar)

/-- Python `str.endswith(suffix)`, modelled as a suffix test on the
character list. -/
def pyEndsWith (s suffix : String) : Bool :=
  List.isSuffixOf suffix.data s.data

/-!
## `fit_sample_signatures`: table plumbing

An SNV row is reduced to the two columns the function reads: the grouping
key (`subset_col`) and `tri_nuc_idx`.  The grouping key type is kept
abstract (pandas is dynamically typed); a linear order supplies the sorted
key index that `groupby`/`unstack` produce.
-/

/-- `snvs_table.groupby(subset_col).size()` evaluated at group `g`:
the number of rows whose grouping key is `g`. -/
def snvCount {α : Type} [DecidableEq α] (snvs : List (α × ℕ)) (g : α) : ℕ :=
  snvs.countP (fun r => decide (r.1 = g))

/-- The table after
`set_index(subset_col).loc[snv_counts[snv_counts > 100].index].reset_index()`:
only rows whose group has strictly more than 100 SNVs survive. -/
def filteredSnvs {α : Type} [DecidableEq α] (snvs : List (α × ℕ)) : List (α × ℕ) :=
  snvs.filter (fun r => decide (100 < snvCount snvs r.1))

/-- Insert a value in front of the first element it is `≤`. -/
def insertLe {α : Type} [LinearOrder α] (a : α) : List α → List α
  | [] => [a]
  | b :: l => if a ≤ b then a :: b :: l else b :: insertLe a l

/-- Sort into ascending order (insertion sort). -/
def sortLe {α : Type} [LinearOrder α] : List α → List α
  | [] => []
  | a :: l => insertLe a (sortLe l)

/-- Sorted list of distinct values: the key index produced by pandas
`groupby` (row index) and `unstack` (column index). -/
def sortedDedup {α : Type} [LinearOrder α] (l : List α) : List α :=
  sortLe l.dedup

/-- Row index of `tri_nuc_table`: the distinct surviving grouping keys. -/
def groupKeys {α : Type} [LinearOrder α] (snvs : List (α × ℕ)) : List α :=
  sortedDedup ((filteredSnvs snvs).map (fun r => r.1))

/-- Column index of `tri_nuc_table`: `unstack` creates one column per
distinct `tri_nuc_idx` value occurring in the filtered table. -/
def triNucCols {α : Type} [LinearOrder α] (snvs : List (α × ℕ)) : List ℕ :=
  sortedDedup ((filteredSnvs snvs).map (fun r => r.2))

/-- One cell of `tri_nuc_table`: the size of group `(g, c)` of
`groupby([subset_col, 'tri_nuc_idx'])`; `fillna(0)` makes a missing
combination the count `0`, which `countP` gives directly. -/
def cellCount {α : Type} [DecidableEq α] (snvs : List (α × ℕ)) (g : α) (c : ℕ) : ℕ :=
  (filteredSnvs snvs).countP (fun r => decide (r.1 = g ∧ r.2 = c))

/-- The word list that `lda.utils.matrix_to_lists` extracts from row `g` of
`tri_nuc_table.values`: column position `j` repeated `cellCount` times, in
increasing column order.  Note the words are column *positions*, not
`tri_nuc_idx` values. -/
def docOf {α : Type} [LinearOrder α] (snvs : List (α × ℕ)) (g : α) : List ℕ :=
  ((List.range (triNucCols snvs).length).map
    (fun j => List.replicate (cellCount snvs g ((triNucCols snvs).getD j 0)) j)).flatten

/-!
## The fixed-basis transform of the external `lda` library

`model.transform(X, max_iter=1000)` runs, for each document (group), the
iterative inference `_transform_single`: starting from a zero
word-by-topic matrix `PZS`, repeat
`PZS_new[i][t] = components[t][word_i] * (colsum(PZS)[t] - PZS[i][t] + alpha)`
followed by row normalisation, stopping early once the entrywise absolute
change drops below `tol`; the returned topic distribution is the column-sum
vector of `PZS` divided by the total.  `alpha = 0.01` and `tol = 1e-16`
come from `lda.LDA(..., alpha=0.01)` and the `transform` default.
-/

/-- Divide every entry of a row by the row total (numpy
`PZS_new /= PZS_new.sum(axis=1)[:, np.newaxis]` for one row). -/
def normalizeRow (l : List ℚ) : List ℚ :=
  l.map (fun x => x / l.sum)

/-- `PZS.sum(axis=0)`: pointwise sum of the rows, as a length-`n` vector. -/
def colSums (rows : List (List ℚ)) (n : ℕ) : List ℚ :=
  rows.foldr (fun r acc => List.zipWith (fun a b => a + b) r acc) (List.replicate n 0)

/-- One row of the multiplicative update for word `w`:
`components_[:, w] * (PZS.sum(axis=0) - PZS[i] + alpha)`, normalised. -/
def updateRow (comp : ℕ → ℕ → ℚ) (n : ℕ) (alpha : ℚ) (cs : List ℚ) (w : ℕ)
    (row : List ℚ) : List ℚ :=
  normalizeRow ((List.range n).map (fun t => comp t w * (cs.getD t 0 - row.getD t 0 + alpha)))

/-- One full iteration of `_transform_single` on the word-by-topic matrix. -/
def updateStep (comp : ℕ → ℕ → ℚ) (n : ℕ) (alpha : ℚ) (doc : List ℕ)
    (PZS : List (List ℚ)) : List (List ℚ) :=
  List.zipWith (updateRow comp n alpha (colSums PZS n)) doc PZS

/-- `delta_naive = np.abs(PZS_new - PZS).sum()`. -/
def deltaNaive (A B : List (List ℚ)) : ℚ :=
  (List.zipWith (fun r s => (List.zipWith (fun a b => |a - b|) r s).sum) A B).sum

/-- The `for iteration in range(max_iter + 1)` loop with the
`if delta_naive < tol: break` early exit, driven by fuel. -/
def transformLoop (comp : ℕ → ℕ → ℚ) (n : ℕ) (alpha tol : ℚ) (doc : List ℕ) :
    ℕ → List (List ℚ) → List (List ℚ)
  | 0, PZS => PZS
  | fuel + 1, PZS =>
    let P := updateStep comp n alpha doc PZS
    if deltaNaive P PZS < tol then P else transformLoop comp n alpha tol doc fuel P

/-- `_transform_single(doc, max_iter, tol)`:
`theta_doc = PZS.sum(axis=0) / PZS.sum()` after the update loop. -/
def transformSingle (comp : ℕ → ℕ → ℚ) (n : ℕ) (alpha tol : ℚ) (maxIter : ℕ)
    (doc : List ℕ) : List ℚ :=
  let P := transformLoop comp n alpha tol doc (maxIter + 1)
    (doc.map (fun _ => List.replicate n 0))
  let total := (P.map List.sum).sum
  (colSums P n).map (fun x => x / total)

/-- `fit_sample_signatures(snvs_table, sig_prob, subset_col)`.
`sigProb c t` is the probability of context row `c` under signature column
`t`; `model.components_ = sig_prob.values.T` makes the transform read it
transposed.  Returns the empty table when no group survives the `>100`
filter, otherwise one exposure row per surviving group. -/
def fitSampleSignatures {α : Type} [LinearOrder α] (snvs : List (α × ℕ))
    (sigProb : ℕ → ℕ → ℚ) (nSig : ℕ) : List (α × List ℚ) :=
  if groupKeys snvs = [] then []
  else (groupKeys snvs).map (fun g =>
    (g, transformSingle (fun t w => sigProb w t) nSig (1 / 100) (1 / 10 ^ 16) 1000
      (docOf snvs g)))

/-!
## Basic lemmas about the table plumbing
-/

theorem complementChar_involution (c : Char) : complementChar (complementChar c) = c := by
  by_cases h1 : c = 'A'
  · subst h1; decide
  by_cases h2 : c = 'C'
  · subst h2; decide
  by_cases h3 : c = 'T'
  · subst h3; decide
  by_cases h4 : c = 'G'
  · subst h4; decide
  by_cases h5 : c = 'a'
  · subst h5; decide
  by_cases h6 : c = 'c'
  · subst h6; decide
  by_cases h7 : c = 't'
  · subst h7; decide
  by_cases h8 : c = 'g'
  · subst h8; decide
  have hc : complementChar c = c := by
    simp only [complementChar, if_neg h1, if_neg h2, if_neg h3, if_neg h4,
      if_neg h5, if_neg h6, if_neg h7, if_neg h8]
  rw [hc, hc]

theorem revComp_data_involution (l : List Char) :
    ((l.reverse.map complementChar).reverse.map complementChar) = l := by
  rw [← List.map_reverse, List.reverse_reverse, List.map_map]
  have h : complementChar ∘ complementChar = id := funext complementChar_involution
  rw [h, List.map_id]

/-- C7: `reverse_complement` is an involution on every string (in
particular on every string over the bases `ACGT` in either case), and it
acts by reversing the sequence and substituting `A↔T`, `C↔G`
case-preservingly. -/
theorem reverseComplement_involution :
    (∀ s : String, reverseComplement (reverseComplement s) = s) ∧
    reverseComplement "A" = "T" ∧ reverseComplement "T" = "A" ∧
    reverseComplement "C" = "G" ∧ reverseComplement "G" = "C" ∧
    reverseComplement "a" = "t" ∧ reverseComplement "c" = "g" ∧
    reverseComplement "ACT" = "AGT" ∧ reverseComplement "acg" = "cgt" := by
  refine ⟨?_, by decide, by decide, by decide, by decide, by decide, by decide,
    by decide, by decide⟩
  intro s
  cases s with
  | mk l => exact congrArg String.mk (revComp_data_involution l)

theorem mem_insertLe {α : Type} [LinearOrder α] (a b : α) (l : List α) :
    a ∈ insertLe b l ↔ a = b ∨ a ∈ l := by
  induction l with
  | nil => simp [insertLe]
  | cons c l ih =>
    unfold insertLe
    by_cases h : b ≤ c
    · rw [if_pos h]
      simp
    · rw [if_neg h]
      simp only [List.mem_cons, ih]
      tauto

theorem mem_sortLe {α : Type} [LinearOrder α] (a : α) (l : List α) :
    a ∈ sortLe l ↔ a ∈ l := by
  induction l with
  | nil => simp [sortLe]
  | cons b l ih =>
    unfold sortLe
    rw [mem_insertLe, ih]
    simp

theorem mem_sortedDedup {α : Type} [LinearOrder α] (l : List α) (a : α) :
    a ∈ sortedDedup l ↔ a ∈ l := by
  unfold sortedDedup
  rw [mem_sortLe, List.mem_dedup]

theorem mem_groupKeys {α : Type} [LinearOrder α] (snvs : List (α × ℕ)) (g : α) :
    g ∈ groupKeys snvs ↔ 100 < snvCount snvs g := by
  unfold groupKeys
  rw [mem_sortedDedup, List.mem_map]
  constructor
  · rintro ⟨r, hr, rfl⟩
    have h := (List.mem_filter.mp hr).2
    simpa using h
  · intro h
    have h0 : 0 < snvs.countP (fun r => decide (r.1 = g)) := by
      have : (0 : ℕ) < 100 := by norm_num
      exact lt_trans this h
    obtain ⟨r, hr, hp⟩ := List.countP_pos_iff.mp h0
    have hg : r.1 = g := of_decide_eq_true hp
    refine ⟨r, List.mem_filter.mpr ⟨hr, ?_⟩, hg⟩
    rw [hg]
    simpa using h

/-- C2: the row-label set of the exposure table returned by
`fit_sample_signatures` is exactly the set of grouping keys whose total
variant count is strictly greater than 100; groups with count `≤ 100`
never appear. -/
theorem fit_index_iff {α : Type} [LinearOrder α] (snvs : List (α × ℕ))
    (sigProb : ℕ → ℕ → ℚ) (nSig : ℕ) (g : α) :
    g ∈ (fitSampleSignatures snvs sigProb nSig).map (fun p => p.1) ↔
      100 < snvCount snvs g := by
  unfold fitSampleSignatures
  by_cases h : groupKeys snvs = []
  · rw [if_pos h]
    simp only [List.map_nil, List.not_mem_nil, false_iff]
    intro hc
    have hmem := (mem_groupKeys snvs g).mpr hc
    rw [h] at hmem
    exact List.not_mem_nil g hmem
  · rw [if_neg h, List.map_map]
    have hid : ((fun p => p.1) ∘ fun g =>
        ((g, transformSingle (fun t w => sigProb w t) nSig (1 / 100) (1 / 10 ^ 16) 1000
          (docOf snvs g)) : α × List ℚ)) = fun g => g := rfl
    rw [hid, List.map_id']
    exact mem_groupKeys snvs g

/-- C5: when no group passes the `>100`-count filter (in particular on the
empty input table) `fit_sample_signatures` returns the empty exposure
table; the embedded function is total, so no error is raised. -/
theorem fit_empty_when_no_group_passes {α : Type} [LinearOrder α]
    (snvs : List (α × ℕ)) (sigProb : ℕ → ℕ → ℚ) (nSig : ℕ)
    (h : ∀ g : α, ¬ 100 < snvCount snvs g) :
    fitSampleSignatures snvs sigProb nSig = [] := by
  have hg : groupKeys snvs = [] := by
    cases hk : groupKeys snvs with
    | nil => rfl
    | cons a l =>
      have ha : a ∈ groupKeys snvs := by
        rw [hk]; exact List.mem_cons_self a l
      exact absurd ((mem_groupKeys snvs a).mp ha) (h a)
  unfold fitSampleSignatures
  rw [if_pos hg]

/-- Closed instance of C5: on the empty SNV table every group count is `0`,
the hypothesis of `fit_empty_when_no_group_passes` holds, and the fitted
exposure table is empty. -/
theorem fit_empty_when_no_group_passes_witness :
    (∀ g : String, ¬ 100 < snvCount ([] : List (String × ℕ)) g) ∧
    fitSampleSignatures ([] : List (String × ℕ)) (fun _ _ => 0) 3 = [] := by
  have h : ∀ g : String, ¬ 100 < snvCount ([] : List (String × ℕ)) g := by
    intro g
    simp [snvCount]
  exact ⟨h, fit_empty_when_no_group_passes _ _ _ h⟩

/-!
## `test_ancestral_descendant`

`data.groupby(by=lambda a: a.endswith('Node0'))` groups a pandas series by
a boolean computed from each index label; `dict(list(...))` turns the
groups into a dictionary, and `data[True]` / `data[False]` raise `KeyError`
when a class is empty.  The groupby is embedded as a single pass that
appends each row to the bucket of its key; `scipy.stats.mannwhitneyu`
(external, spec section 1) stays an uninterpreted parameter `mw` standing
for the p-value component `mannwhitneyu(x, y)[1]`.
-/

/-- Append one value to the bucket of its key, creating the bucket if it
does not exist yet. -/
def bucketAdd {κ V : Type} [DecidableEq κ] :
    List (κ × List V) → κ → V → List (κ × List V)
  | [], k, v => [(k, [v])]
  | b :: rest, k, v =>
    if b.1 = k then (b.1, b.2 ++ [v]) :: rest else b :: bucketAdd rest k v

/-- `groupby(by=f)`: distribute the rows over buckets keyed by `f`. -/
def bucketsOf {κ V : Type} [DecidableEq κ] (f : V → κ) (l : List V) :
    List (κ × List V) :=
  l.foldl (fun bs v => bucketAdd bs (f v) v) []

/-- Dictionary lookup `data[k]`; `none` models the `KeyError` raised on a
missing key. -/
def bucketFind {κ V : Type} [DecidableEq κ] (bs : List (κ × List V)) (k : κ) :
    Option (List V) :=
  (bs.find? (fun b => decide (b.1 = k))).map (fun b => b.2)

/-- The ancestral class: rows whose identifier ends with `"Node0"`. -/
def ancestralRows (data : List (String × ℚ)) : List (String × ℚ) :=
  data.filter (fun r => pyEndsWith r.1 "Node0")

/-- The descendant class: all remaining rows. -/
def descendantRows (data : List (String × ℚ)) : List (String × ℚ) :=
  data.filter (fun r => !pyEndsWith r.1 "Node0")

/-- `test_ancestral_descendant(data)`: group by the `Node0` suffix, look up
both classes (Python raises `KeyError`, here `none`, if either is absent)
and hand their value lists to the external rank-sum routine `mw`. -/
def testAncestralDescendant (mw : List ℚ → List ℚ → ℚ)
    (data : List (String × ℚ)) : Option ℚ :=
  match bucketFind (bucketsOf (fun r => pyEndsWith r.1 "Node0") data) true with
  | none => none
  | some t =>
    match bucketFind (bucketsOf (fun r => pyEndsWith r.1 "Node0") data) false with
    | none => none
    | some f => some (mw (t.map (fun r => r.2)) (f.map (fun r => r.2)))

theorem bucketFind_cons {κ V : Type} [DecidableEq κ] (b : κ × List V)
    (bs : List (κ × List V)) (k : κ) :
    bucketFind (b :: bs) k = if b.1 = k then some b.2 else bucketFind bs k := by
  by_cases h : b.1 = k
  · rw [if_pos h]
    unfold bucketFind
    rw [List.find?_cons_of_pos _ (by simpa using h)]
    rfl
  · rw [if_neg h]
    unfold bucketFind
    rw [List.find?_cons_of_neg _ (by simpa using h)]

theorem bucketFind_add_same {κ V : Type} [DecidableEq κ] (bs : List (κ × List V))
    (k : κ) (v : V) :
    bucketFind (bucketAdd bs k v) k = some ((bucketFind bs k).getD [] ++ [v]) := by
  induction bs with
  | nil => simp [bucketAdd, bucketFind_cons, bucketFind]
  | cons b rest ih =>
    by_cases h : b.1 = k
    · rw [bucketAdd, if_pos h, bucketFind_cons, if_pos h, bucketFind_cons, if_pos h]
      rfl
    · rw [bucketAdd, if_neg h, bucketFind_cons, if_neg h, bucketFind_cons, if_neg h, ih]

theorem bucketFind_add_ne {κ V : Type} [DecidableEq κ] (bs : List (κ × List V))
    (k q : κ) (v : V) (h : q ≠ k) :
    bucketFind (bucketAdd bs k v) q = bucketFind bs q := by
  induction bs with
  | nil =>
    rw [bucketAdd, bucketFind_cons, if_neg (fun hh : k = q => h hh.symm)]
  | cons b rest ih =>
    by_cases hb : b.1 = k
    · rw [bucketAdd, if_pos hb, bucketFind_cons, bucketFind_cons]
      have hq : ¬ b.1 = q := by
        intro hh
        exact h (hh.symm.trans hb)
      rw [if_neg hq, if_neg hq]
    · rw [bucketAdd, if_neg hb, bucketFind_cons, bucketFind_cons, ih]

/-- Extending the content found for one key by the further rows that fall
into that key: `none` stands for a still-absent bucket. -/
def optExtend {V : Type} (o : Option (List V)) (l : List V) : Option (List V) :=
  match o, l with
  | none, [] => none
  | o, l => some (o.getD [] ++ l)

theorem optExtend_some {V : Type} (x : List V) (l : List V) :
    optExtend (some x) l = some (x ++ l) := by
  cases l <;> rfl

theorem optExtend_cons {V : Type} (o : Option (List V)) (v : V) (l : List V) :
    optExtend o (v :: l) = some (o.getD [] ++ v :: l) := by
  cases o <;> rfl

theorem bucketFind_foldl {κ V : Type} [DecidableEq κ] (f : V → κ) (l : List V)
    (bs : List (κ × List V)) (k : κ) :
    bucketFind (l.foldl (fun bs v => bucketAdd bs (f v) v) bs) k =
      optExtend (bucketFind bs k) (l.filter (fun v => decide (f v = k))) := by
  induction l generalizing bs with
  | nil =>
    simp only [List.foldl_nil, List.filter_nil]
    cases h : bucketFind bs k with
    | none => rfl
    | some vs => rw [optExtend_some, List.append_nil]
  | cons v l ih =>
    simp only [List.foldl_cons]
    rw [ih]
    by_cases h : f v = k
    · rw [h, bucketFind_add_same, List.filter_cons_of_pos (by simp [h]),
        optExtend_some, optExtend_cons]
      simp [List.append_assoc]
    · rw [bucketFind_add_ne bs (f v) k v (fun hh => h hh.symm),
        List.filter_cons_of_neg (by simp [h])]

theorem bucketFind_bucketsOf {κ V : Type} [DecidableEq κ] (f : V → κ)
    (l : List V) (k : κ) :
    bucketFind (bucketsOf f l) k =
      optExtend none (l.filter (fun v => decide (f v = k))) := by
  unfold bucketsOf
  rw [bucketFind_foldl]
  rfl

theorem filter_decide_true_eq (data : List (String × ℚ)) :
    data.filter (fun v => decide (pyEndsWith v.1 "Node0" = true)) =
      ancestralRows data := by
  unfold ancestralRows
  apply List.filter_congr
  intro a _
  cases hb : pyEndsWith a.1 "Node0" <;> simp [hb]

theorem filter_decide_false_eq (data : List (String × ℚ)) :
    data.filter (fun v => decide (pyEndsWith v.1 "Node0" = false)) =
      descendantRows data := by
  unfold descendantRows
  apply List.filter_congr
  intro a _
  cases hb : pyEndsWith a.1 "Node0" <;> simp [hb]

theorem find_true_of_ne (data : List (String × ℚ)) (ha : ancestralRows data ≠ []) :
    bucketFind (bucketsOf (fun r => pyEndsWith r.1 "Node0") data) true =
      some (ancestralRows data) := by
  rw [bucketFind_bucketsOf, filter_decide_true_eq]
  cases h : ancestralRows data with
  | nil => exact absurd h ha
  | cons v l => rw [optExtend_cons]; rfl

theorem find_true_of_nil (data : List (String × ℚ)) (ha : ancestralRows data = []) :
    bucketFind (bucketsOf (fun r => pyEndsWith r.1 "Node0") data) true = none := by
  rw [bucketFind_bucketsOf, filter_decide_true_eq, ha]
  rfl

theorem find_false_of_ne (data : List (String × ℚ)) (hd : descendantRows data ≠ []) :
    bucketFind (bucketsOf (fun r => pyEndsWith r.1 "Node0") data) false =
      some (descendantRows data) := by
  rw [bucketFind_bucketsOf, filter_decide_false_eq]
  cases h : descendantRows data with
  | nil => exact absurd h hd
  | cons v l => rw [optExtend_cons]; rfl

theorem find_false_of_nil (data : List (String × ℚ)) (hd : descendantRows data = []) :
    bucketFind (bucketsOf (fun r => pyEndsWith r.1 "Node0") data) false = none := by
  rw [bucketFind_bucketsOf, filter_decide_false_eq, hd]
  rfl

theorem testAD_eq_of_classes (mw : List ℚ → List ℚ → ℚ) (data : List (String × ℚ))
    (h1 : ∃ r ∈ data, pyEndsWith r.1 "Node0" = true)
    (h2 : ∃ r ∈ data, pyEndsWith r.1 "Node0" = false) :
    testAncestralDescendant mw data =
      some (mw ((ancestralRows data).map (fun r => r.2))
               ((descendantRows data).map (fun r => r.2))) := by
  have ha : ancestralRows data ≠ [] := by
    obtain ⟨r, hr, hp⟩ := h1
    intro hn
    unfold ancestralRows at hn
    rw [List.filter_eq_nil_iff] at hn
    exact hn r hr (by simp [hp])
  have hd : descendantRows data ≠ [] := by
    obtain ⟨r, hr, hp⟩ := h2
    intro hn
    unfold descendantRows at hn
    rw [List.filter_eq_nil_iff] at hn
    exact hn r hr (by simp [hp])
  unfold testAncestralDescendant
  rw [find_true_of_ne data ha, find_false_of_ne data hd]

/-- C4: whenever the series index has at least one identifier ending in
`"Node0"` and at least one not, `test_ancestral_descendant` partitions the
values into exactly those two classes by the suffix test and returns the
result of the external rank-sum routine (the p-value component
`mannwhitneyu(ancestral, descendant)[1]`) applied to the two value lists,
ancestral class first. -/
theorem testAD_partitions_by_suffix (mw : List ℚ → List ℚ → ℚ)
    (data : List (String × ℚ))
    (h1 : ∃ r ∈ data, pyEndsWith r.1 "Node0" = true)
    (h2 : ∃ r ∈ data, pyEndsWith r.1 "Node0" = false) :
    testAncestralDescendant mw data =
      some (mw ((ancestralRows data).map (fun r => r.2))
               ((descendantRows data).map (fun r => r.2))) :=
  testAD_eq_of_classes mw data h1 h2

/-- Closed instance of C4 at a two-row series with one identifier in each
class: the test returns the external routine applied to `[1]` and `[2]`. -/
theorem testAD_partitions_by_suffix_witness :
    (∃ r ∈ [("aNode0", (1 : ℚ)), ("b", 2)], pyEndsWith r.1 "Node0" = true) ∧
    (∃ r ∈ [("aNode0", (1 : ℚ)), ("b", 2)], pyEndsWith r.1 "Node0" = false) ∧
    testAncestralDescendant (fun x y => x.sum - y.sum) [("aNode0", 1), ("b", 2)] =
      some ((fun x y => x.sum - y.sum)
        ((ancestralRows [("aNode0", 1), ("b", 2)]).map (fun r => r.2))
        ((descendantRows [("aNode0", 1), ("b", 2)]).map (fun r => r.2))) :=
  ⟨by decide, by decide,
    testAD_partitions_by_suffix (fun x y => x.sum - y.sum) _ (by decide) (by decide)⟩

/-- C6: when either the ancestral class or the descendant class is empty,
`test_ancestral_descendant` produces no value: the dictionary lookup
`data[True]` / `data[False]` fails (`KeyError` in Python, `none` here). -/
theorem testAD_fails_on_empty_class (mw : List ℚ → List ℚ → ℚ)
    (data : List (String × ℚ))
    (h : ancestralRows data = [] ∨ descendantRows data = []) :
    testAncestralDescendant mw data = none := by
  unfold testAncestralDescendant
  rcases h with h | h
  · rw [find_true_of_nil data h]
  · by_cases ha : ancestralRows data = []
    · rw [find_true_of_nil data ha]
    · rw [find_true_of_ne data ha, find_false_of_nil data h]

/-- Closed instance of C6: a series whose only identifier ends in
`"Node0"` has an empty descendant class and the test yields no value. -/
theorem testAD_fails_on_empty_class_witness :
    (descendantRows [("xNode0", (5 : ℚ))] = []) ∧
    testAncestralDescendant (fun x y => x.sum - y.sum) [("xNode0", 5)] = none :=
  ⟨by decide,
    testAD_fails_on_empty_class (fun x y => x.sum - y.sum) _ (Or.inr (by decide))⟩

/-!
## `plot_signature_boxplots`: the signature-retention filter

`test_pvalue = sample_sig.apply(test_ancestral_descendant)` computes one
p-value per signature column (propagating the test's failure), and
`sample_sig.loc[:, test_pvalue[test_pvalue < pvalue_threshold].index]`
keeps exactly the columns whose p-value is strictly below the threshold,
whose default is `0.01`.  Only this retention step is embedded; the
rendering that follows is pure plotting.
-/

/-- Column `c` of the exposure table as a series over the sample index. -/
def columnSeries (samples : List String) (entry : String → String → ℚ)
    (c : String) : List (String × ℚ) :=
  samples.map (fun s => (s, entry s c))

/-- The set of signature columns retained by `plot_signature_boxplots`;
`none` models the propagated failure when `test_ancestral_descendant`
raises on some column.  The default threshold is the source default
`pvalue_threshold=0.01`. -/
def plotRetainedSignatures (mw : List ℚ → List ℚ → ℚ) (samples : List String)
    (cols : List String) (entry : String → String → ℚ)
    (thr : ℚ := 1 / 100) : Option (List String) :=
  if cols.all (fun c => (testAncestralDescendant mw (columnSeries samples entry c)).isSome)
  then some (cols.filter (fun c =>
    match testAncestralDescendant mw (columnSeries samples entry c) with
    | some p => decide (p < thr)
    | none => false))
  else none

/-- The p-value the external routine assigns to signature column `c`:
ancestral samples against descendant samples. -/
def colPvalue (mw : List ℚ → List ℚ → ℚ) (samples : List String)
    (entry : String → String → ℚ) (c : String) : ℚ :=
  mw ((samples.filter (fun s => pyEndsWith s "Node0")).map (fun s => entry s c))
     ((samples.filter (fun s => !pyEndsWith s "Node0")).map (fun s => entry s c))

theorem testAD_columnSeries (mw : List ℚ → List ℚ → ℚ) (samples : List String)
    (entry : String → String → ℚ) (c : String)
    (h1 : ∃ s ∈ samples, pyEndsWith s "Node0" = true)
    (h2 : ∃ s ∈ samples, pyEndsWith s "Node0" = false) :
    testAncestralDescendant mw (columnSeries samples entry c) =
      some (colPvalue mw samples entry c) := by
  have ha : ancestralRows (columnSeries samples entry c) =
      (samples.filter (fun s => pyEndsWith s "Node0")).map (fun s => (s, entry s c)) := by
    unfold ancestralRows columnSeries
    rw [List.filter_map]
    rfl
  have hd : descendantRows (columnSeries samples entry c) =
      (samples.filter (fun s => !pyEndsWith s "Node0")).map (fun s => (s, entry s c)) := by
    unfold descendantRows columnSeries
    rw [List.filter_map]
    rfl
  have h1c : ∃ r ∈ columnSeries samples entry c, pyEndsWith r.1 "Node0" = true := by
    obtain ⟨s, hs, hp⟩ := h1
    exact ⟨(s, entry s c), List.mem_map.mpr ⟨s, hs, rfl⟩, hp⟩
  have h2c : ∃ r ∈ columnSeries samples entry c, pyEndsWith r.1 "Node0" = false := by
    obtain ⟨s, hs, hp⟩ := h2
    exact ⟨(s, entry s c), List.mem_map.mpr ⟨s, hs, rfl⟩, hp⟩
  rw [testAD_eq_of_classes mw _ h1c h2c, ha, hd, List.map_map, List.map_map]
  rfl

/-- C9: under the precondition that both classes are inhabited (otherwise
the per-column test raises and the plot call fails), the signatures
retained by `plot_signature_boxplots` are exactly the columns whose
p-value is strictly below the caller-supplied threshold; the threshold
defaults to `0.01`. -/
theorem plotRetained_iff (mw : List ℚ → List ℚ → ℚ) (samples : List String)
    (cols : List String) (entry : String → String → ℚ) (thr : ℚ)
    (h1 : ∃ s ∈ samples, pyEndsWith s "Node0" = true)
    (h2 : ∃ s ∈ samples, pyEndsWith s "Node0" = false) :
    plotRetainedSignatures mw samples cols entry thr =
      some (cols.filter (fun c => decide (colPvalue mw samples entry c < thr))) ∧
    (∀ c, c ∈ (plotRetainedSignatures mw samples cols entry thr).getD [] ↔
      c ∈ cols ∧ colPvalue mw samples entry c < thr) ∧
    plotRetainedSignatures mw samples cols entry =
      plotRetainedSignatures mw samples cols entry (1 / 100) := by
  have hcol : ∀ c, testAncestralDescendant mw (columnSeries samples entry c) =
      some (colPvalue mw samples entry c) :=
    fun c => testAD_columnSeries mw samples entry c h1 h2
  have hall : cols.all
      (fun c => (testAncestralDescendant mw (columnSeries samples entry c)).isSome) = true := by
    rw [List.all_eq_true]
    intro c _
    rw [hcol c]
    rfl
  have hfil : cols.filter (fun c =>
      match testAncestralDescendant mw (columnSeries samples entry c) with
      | some p => decide (p < thr)
      | none => false) =
      cols.filter (fun c => decide (colPvalue mw samples entry c < thr)) := by
    apply List.filter_congr
    intro c _
    rw [hcol c]
  have hmain : plotRetainedSignatures mw samples cols entry thr =
      some (cols.filter (fun c => decide (colPvalue mw samples entry c < thr))) := by
    unfold plotRetainedSignatures
    rw [if_pos hall, hfil]
  refine ⟨hmain, ?_, rfl⟩
  intro c
  rw [hmain]
  simp only [Option.getD_some, List.mem_filter, decide_eq_true_eq]

/-- Closed instance of C9: two samples, one per class, a single signature
column, and an external routine returning a constant p-value of `0`; the
column is retained under the default threshold `0.01` because `0 < 1/100`. -/
theorem plotRetained_iff_witness :
    (∃ s ∈ ["aNode0", "b"], pyEndsWith s "Node0" = true) ∧
    (∃ s ∈ ["aNode0", "b"], pyEndsWith s "Node0" = false) ∧
    (∀ c, c ∈ (plotRetainedSignatures (fun _ _ => 0) ["aNode0", "b"] ["7"]
        (fun _ _ => 1) (1 / 100)).getD [] ↔
      c ∈ ["7"] ∧ colPvalue (fun _ _ => 0) ["aNode0", "b"] (fun _ _ => 1) c < 1 / 100) :=
  ⟨by decide, by decide,
    (plotRetained_iff (fun _ _ => 0) ["aNode0", "b"] ["7"] (fun _ _ => 1) (1 / 100)
      (by decide) (by decide)).2.1⟩

/-!
## `load_signature_probabilities`: the context lookup

The builder splits `Substitution Type` on `'>'` into `ref`/`alt`, keeps the
trinucleotide context, tags each row with `tri_nuc_idx = range(len(...))`,
and concatenates the original rows with their reverse complements (same
index).  The packaged reference file `data/signatures_probabilities.tsv` is
repository data that is not under `src/`, so its content is modelled from
the spec below (`cosmicRows`).
-/

/-- `a.split('>')[0]`: the characters before the first separator. -/
def refOf (sub : String) : String :=
  String.mk (sub.data.takeWhile (fun c => decide (c ≠ '>')))

/-- `a.split('>')[1]`: the characters between the first separator and the
next one (for a well-formed `"X>Y"` value, everything after `'>'`). -/
def altOf (sub : String) : String :=
  String.mk (((sub.data.dropWhile (fun c => decide (c ≠ '>'))).drop 1).takeWhile
    (fun c => decide (c ≠ '>')))

/-- The `sig1` table: original `(tri_nuc_idx, ref, alt, context)` rows,
indexed by position (`tri_nuc_idx = range(len(...))`). -/
def sig1Rows (rows : List (String × String)) : List (ℕ × String × String × String) :=
  rows.enum.map (fun p => (p.1, refOf p.2.1, altOf p.2.1, p.2.2))

/-- The `sig2` table: the same rows with `ref`, `alt` and context each
reverse-complemented, carrying the same index. -/
def sig2Rows (rows : List (String × String)) : List (ℕ × String × String × String) :=
  rows.enum.map (fun p =>
    (p.1, reverseComplement (refOf p.2.1), reverseComplement (altOf p.2.1),
      reverseComplement p.2.2))

/-- The `sigs` table of `load_signature_probabilities`:
`pd.concat([sig1, sig2], ignore_index=True)`. -/
def buildSigs (rows : List (String × String)) : List (ℕ × String × String × String) :=
  sig1Rows rows ++ sig2Rows rows

/-- The four DNA bases. -/
def bases : List Char := ['A', 'C', 'G', 'T']

/-- Modelled from the spec: the packaged COSMIC signature-probability
table (`data/signatures_probabilities.tsv`, not under `src/`) has one row
per each of the 96 substitution-in-context classes, written in
pyrimidine-reference orientation: `Substitution Type` is `"X>Y"` with
`X ∈ {C,T}` and `Y` one of the three other bases, and `Trinucleotide` is
the context with one flanking base on each side. -/
def cosmicRows : List (String × String) :=
  ['C', 'T'].flatMap (fun r =>
    (bases.filter (fun a => decide (a ≠ r))).flatMap (fun a =>
      bases.flatMap (fun l =>
        bases.map (fun t => (String.mk [r, '>', a], String.mk [l, r, t])))))

theorem reverseComplement_rc_rc (s : String) :
    reverseComplement (reverseComplement s) = s := by
  cases s with
  | mk l => exact congrArg String.mk (revComp_data_involution l)

theorem reverseComplement_injOn (a b : String)
    (h : reverseComplement a = reverseComplement b) : a = b := by
  have h2 := congrArg reverseComplement h
  rwa [reverseComplement_rc_rc, reverseComplement_rc_rc] at h2

theorem sig2Rows_eq_map (rows : List (String × String)) :
    sig2Rows rows = (sig1Rows rows).map (fun p =>
      (p.1, reverseComplement p.2.1, reverseComplement p.2.2.1,
        reverseComplement p.2.2.2)) := by
  unfold sig1Rows sig2Rows
  rw [List.map_map]
  rfl

theorem buildSigs_rc_mem (rows : List (String × String)) :
    ∀ p ∈ buildSigs rows,
      (p.1, reverseComplement p.2.1, reverseComplement p.2.2.1,
        reverseComplement p.2.2.2) ∈ buildSigs rows := by
  intro p hp
  unfold buildSigs at hp ⊢
  rcases List.mem_append.mp hp with h | h
  · refine List.mem_append.mpr (Or.inr ?_)
    rw [sig2Rows_eq_map]
    exact List.mem_map.mpr ⟨p, h, rfl⟩
  · refine List.mem_append.mpr (Or.inl ?_)
    rw [sig2Rows_eq_map] at h
    obtain ⟨q, hq, rfl⟩ := List.mem_map.mp h
    simp only [reverseComplement_rc_rc]
    exact hq

set_option maxRecDepth 10000 in
/-- C8: in the context lookup built from the (spec-modelled) 96-row COSMIC
table, every row's reverse-complemented counterpart is present with the
same context index, and the lookup is functional: any two rows carrying
the same `(ref, alt, context)` triple carry the same context index. -/
theorem sigs_context_index_invariant :
    (∀ p ∈ buildSigs cosmicRows,
      (p.1, reverseComplement p.2.1, reverseComplement p.2.2.1,
        reverseComplement p.2.2.2) ∈ buildSigs cosmicRows) ∧
    (∀ p ∈ buildSigs cosmicRows, ∀ q ∈ buildSigs cosmicRows,
      p.2 = q.2 → p.1 = q.1) := by
  have hOdist : ∀ p ∈ sig1Rows cosmicRows, ∀ q ∈ sig1Rows cosmicRows,
      p.2 = q.2 → p.1 = q.1 := by decide
  have hOref : ∀ p ∈ sig1Rows cosmicRows, p.2.1 = "C" ∨ p.2.1 = "T" := by decide
  have hRref : ∀ q ∈ sig2Rows cosmicRows, q.2.1 = "G" ∨ q.2.1 = "A" := by decide
  have hcross : ∀ p ∈ sig1Rows cosmicRows, ∀ q ∈ sig2Rows cosmicRows,
      p.2 ≠ q.2 := by
    intro p hp q hq h
    have h1 : p.2.1 = q.2.1 := by rw [h]
    rcases hOref p hp with h2 | h2 <;> rcases hRref q hq with h3 | h3 <;>
      rw [h2, h3] at h1 <;> exact absurd h1 (by decide)
  refine ⟨buildSigs_rc_mem cosmicRows, ?_⟩
  intro p hp q hq h
  rcases List.mem_append.mp hp with hp1 | hp2 <;>
    rcases List.mem_append.mp hq with hq1 | hq2
  · exact hOdist p hp1 q hq1 h
  · exact absurd h (hcross p hp1 q hq2)
  · exact absurd h.symm (hcross q hq1 p hp2)
  · rw [sig2Rows_eq_map] at hp2 hq2
    obtain ⟨a, ha, rfl⟩ := List.mem_map.mp hp2
    obtain ⟨b, hb, rfl⟩ := List.mem_map.mp hq2
    simp only [Prod.mk.injEq] at h
    have e1 : a.2.1 = b.2.1 := reverseComplement_injOn _ _ h.1
    have e2 : a.2.2.1 = b.2.2.1 := reverseComplement_injOn _ _ h.2.1
    have e3 : a.2.2.2 = b.2.2.2 := reverseComplement_injOn _ _ h.2.2
    have e : a.2 = b.2 := by
      cases ha2 : a.2 with
      | mk x y =>
        cases b2 : b.2 with
        | mk u v =>
          rw [ha2, b2] at e1 e2 e3
          cases y with
          | mk y1 y2 =>
            cases v with
            | mk v1 v2 =>
              simp only at e1 e2 e3
              rw [e1, e2, e3]
    exact hOdist a ha b hb e

/-!
## A group can survive the filter with fewer than 96 observed contexts

`tri_nuc_table = snvs_table.groupby([subset_col, 'tri_nuc_idx']).size()
.unstack().fillna(0)` has one column per `tri_nuc_idx` value that occurs in
the filtered table, not one per context of the signature basis: an input
covering fewer than 96 contexts yields a narrower matrix, whose column
positions then no longer line up with the 96 context rows of
`sig_prob.values.T` pinned as `model.components_`.
-/

/-- 101 SNVs in one group (key `7`), all in trinucleotide context `0`: the
group passes the `>100` filter, yet only one context index occurs. -/
def snvsSingleContext : List (ℕ × ℕ) := List.replicate 101 (7, 0)

set_option maxRecDepth 10000 in
/-- C3 (evaluation at the failing input): the group `7` survives the
count filter, but the count matrix built inside `fit_sample_signatures`
has a single column (for the single observed context index `0`), not 96. -/
theorem triNucCols_not_96_at_single_context :
    snvCount snvsSingleContext 7 = 101 ∧
    groupKeys snvsSingleContext = [7] ∧
    triNucCols snvsSingleContext = [0] ∧
    (triNucCols snvsSingleContext).length = 1 := by
  refine ⟨by decide, by decide, by decide, by decide⟩

/-!
## Determinism of `fit_sample_signatures`

`lda.LDA(..., random_state=0, ...)` pins the seed: the constructor consults
ambient entropy only when `random_state` is `None`, and
`lda.LDA.transform` draws no random numbers at all (it is the
deterministic iterative inference embedded as `transformSingle`).  A run is
therefore modelled as a pure function of the inputs together with the
ambient entropy the constructor could have consumed.
-/

/-- Seed selection of the `lda.LDA` constructor: the supplied
`random_state` when given, otherwise fresh ambient entropy. -/
def ldaRandomSeed (randomState : Option ℕ) (entropy : ℕ) : ℕ :=
  randomState.getD entropy

/-- One run of `fit_sample_signatures` in an environment supplying
`entropy`, returning the seed the model was built with together with the
fitted exposure table.  The source pins `random_state=0`. -/
def fitSampleSignaturesRun {α : Type} [LinearOrder α] (entropy : ℕ)
    (snvs : List (α × ℕ)) (sigProb : ℕ → ℕ → ℚ) (nSig : ℕ) :
    ℕ × List (α × List ℚ) :=
  (ldaRandomSeed (some 0) entropy, fitSampleSignatures snvs sigProb nSig)

/-- C10: `fit_sample_signatures` is deterministic: two runs on identical
inputs return identical exposure tables whatever ambient entropy each run
sees, because the topic model is constructed with the fixed seed `0`
(`random_state=0`) and the embedded transform uses no randomness. -/
theorem fit_deterministic {α : Type} [LinearOrder α] (entropyA entropyB : ℕ)
    (snvs : List (α × ℕ)) (sigProb : ℕ → ℕ → ℚ) (nSig : ℕ) :
    (fitSampleSignaturesRun entropyA snvs sigProb nSig).2 =
      (fitSampleSignaturesRun entropyB snvs sigProb nSig).2 ∧
    (fitSampleSignaturesRun entropyA snvs sigProb nSig).1 = 0 :=
  ⟨rfl, rfl⟩

/-!
## Row normalisation of the transform output

The chain below proves that every surviving group's exposure row is a
probability vector: each update of `_transform_single` produces rows that
are non-negative and sum to `1` (the multiplicative factor is at least
`alpha > 0` times a positive basis column mass), so after the loop the
matrix total equals the word count of the document, which the `>100`
filter keeps positive; the final division therefore yields a non-negative
vector summing to `1`.
-/

theorem sum_map_div (l : List ℚ) (c : ℚ) :
    (l.map (fun x => x / c)).sum = l.sum / c := by
  induction l with
  | nil => simp
  | cons x l ih => simp [ih, add_div]

theorem normalizeRow_sum (l : List ℚ) (h : l.sum ≠ 0) :
    (normalizeRow l).sum = 1 := by
  unfold normalizeRow
  rw [sum_map_div, div_self h]

theorem normalizeRow_nonneg (l : List ℚ) (h : ∀ x ∈ l, 0 ≤ x) :
    ∀ x ∈ normalizeRow l, 0 ≤ x := by
  intro x hx
  unfold normalizeRow at hx
  obtain ⟨y, hy, rfl⟩ := List.mem_map.mp hx
  exact div_nonneg (h y hy) (List.sum_nonneg h)

theorem normalizeRow_length (l : List ℚ) : (normalizeRow l).length = l.length := by
  simp [normalizeRow]

theorem sum_zipWith_add (a b : List ℚ) (h : a.length = b.length) :
    (List.zipWith (fun x y => x + y) a b).sum = a.sum + b.sum := by
  induction a generalizing b with
  | nil =>
    cases b with
    | nil => simp
    | cons y b => simp at h
  | cons x a ih =>
    cases b with
    | nil => simp at h
    | cons y b =>
      simp only [List.zipWith_cons_cons, List.sum_cons]
      rw [ih b (by simpa using h)]
      ring

theorem getD_zipWith_add (a b : List ℚ) (h : a.length = b.length) (t : ℕ) :
    (List.zipWith (fun x y => x + y) a b).getD t 0 = a.getD t 0 + b.getD t 0 := by
  induction a generalizing b t with
  | nil =>
    cases b with
    | nil => simp
    | cons y b => simp at h
  | cons x a ih =>
    cases b with
    | nil => simp at h
    | cons y b =>
      cases t with
      | zero => simp
      | succ t =>
        simp only [List.zipWith_cons_cons, List.getD_cons_succ]
        exact ih b (by simpa using h) t

theorem mem_zipWith_add_nonneg (a : List ℚ) : ∀ (b : List ℚ),
    (∀ x ∈ a, 0 ≤ x) → (∀ x ∈ b, 0 ≤ x) →
    ∀ x ∈ List.zipWith (fun x y => x + y) a b, 0 ≤ x := by
  induction a with
  | nil => intro b _ _ x hx; simp at hx
  | cons x a ih =>
    intro b ha hb z hz
    cases b with
    | nil => simp at hz
    | cons y b =>
      simp only [List.zipWith_cons_cons, List.mem_cons] at hz
      rcases hz with h | h
      · rw [h]
        exact add_nonneg (ha x (List.mem_cons_self x a)) (hb y (List.mem_cons_self y b))
      · exact ih b (fun u hu => ha u (List.mem_cons_of_mem x hu))
          (fun u hu => hb u (List.mem_cons_of_mem y hu)) z h

theorem colSums_nil (n : ℕ) : colSums [] n = List.replicate n 0 := rfl

theorem colSums_cons (r : List ℚ) (rows : List (List ℚ)) (n : ℕ) :
    colSums (r :: rows) n = List.zipWith (fun a b => a + b) r (colSums rows n) := rfl

theorem colSums_length (rows : List (List ℚ)) (n : ℕ)
    (h : ∀ r ∈ rows, r.length = n) : (colSums rows n).length = n := by
  induction rows with
  | nil => simp [colSums_nil]
  | cons r rows ih =>
    rw [colSums_cons, List.length_zipWith,
      ih (fun s hs => h s (List.mem_cons_of_mem r hs)),
      h r (List.mem_cons_self r rows)]
    exact min_self n

theorem colSums_nonneg (rows : List (List ℚ)) (n : ℕ)
    (h : ∀ r ∈ rows, ∀ x ∈ r, 0 ≤ x) : ∀ x ∈ colSums rows n, 0 ≤ x := by
  induction rows with
  | nil =>
    intro x hx
    rw [colSums_nil] at hx
    rw [List.eq_of_mem_replicate hx]
  | cons r rows ih =>
    rw [colSums_cons]
    exact mem_zipWith_add_nonneg r (colSums rows n) (h r (List.mem_cons_self r rows))
      (ih (fun s hs => h s (List.mem_cons_of_mem r hs)))

theorem colSums_sum (rows : List (List ℚ)) (n : ℕ)
    (h : ∀ r ∈ rows, r.length = n) :
    (colSums rows n).sum = (rows.map List.sum).sum := by
  induction rows with
  | nil => simp [colSums_nil]
  | cons r rows ih =>
    rw [colSums_cons, sum_zipWith_add r (colSums rows n)
        (by rw [h r (List.mem_cons_self r rows),
          colSums_length rows n (fun s hs => h s (List.mem_cons_of_mem r hs))]),
      List.map_cons, List.sum_cons,
      ih (fun s hs => h s (List.mem_cons_of_mem r hs))]

theorem getD_nonneg (l : List ℚ) (h : ∀ x ∈ l, 0 ≤ x) (t : ℕ) : 0 ≤ l.getD t 0 := by
  by_cases ht : t < l.length
  · rw [List.getD_eq_getElem l 0 ht]
    exact h _ (l.getElem_mem ht)
  · rw [List.getD_eq_default l 0 (le_of_not_lt ht)]

theorem getD_le_colSums (n : ℕ) : ∀ (rows : List (List ℚ)),
    (∀ r ∈ rows, r.length = n) → (∀ r ∈ rows, ∀ x ∈ r, 0 ≤ x) →
    ∀ r ∈ rows, ∀ t, r.getD t 0 ≤ (colSums rows n).getD t 0 := by
  intro rows
  induction rows with
  | nil => intro _ _ r hr; simp at hr
  | cons b rows ih =>
    intro hlen hnn r hr t
    have hlenb : b.length = n := hlen b (List.mem_cons_self b rows)
    have hlenr : ∀ s ∈ rows, s.length = n :=
      fun s hs => hlen s (List.mem_cons_of_mem b hs)
    have hnnr : ∀ s ∈ rows, ∀ x ∈ s, 0 ≤ x :=
      fun s hs => hnn s (List.mem_cons_of_mem b hs)
    rw [colSums_cons, getD_zipWith_add b (colSums rows n)
      (by rw [hlenb, colSums_length rows n hlenr]) t]
    rcases List.mem_cons.mp hr with h | h
    · rw [h]
      exact le_add_of_nonneg_right (getD_nonneg _ (colSums_nonneg rows n hnnr) t)
    · calc r.getD t 0 ≤ (colSums rows n).getD t 0 := ih hlenr hnnr r h t
        _ ≤ b.getD t 0 + (colSums rows n).getD t 0 :=
          le_add_of_nonneg_left (getD_nonneg b (hnn b (List.mem_cons_self b rows)) t)

theorem updateRow_good (comp : ℕ → ℕ → ℚ) (n : ℕ) (alpha : ℚ) (cs : List ℚ)
    (w : ℕ) (row : List ℚ)
    (hcomp : ∀ t k, 0 ≤ comp t k) (halpha : 0 < alpha)
    (hle : ∀ t, row.getD t 0 ≤ cs.getD t 0)
    (hpos : 0 < ((List.range n).map (fun t => comp t w)).sum) :
    (updateRow comp n alpha cs w row).sum = 1 ∧
    (∀ x ∈ updateRow comp n alpha cs w row, 0 ≤ x) ∧
    (updateRow comp n alpha cs w row).length = n := by
  have hunn : ∀ x ∈ (List.range n).map
      (fun t => comp t w * (cs.getD t 0 - row.getD t 0 + alpha)), 0 ≤ x := by
    intro x hx
    obtain ⟨t, _, rfl⟩ := List.mem_map.mp hx
    have h1 : 0 ≤ cs.getD t 0 - row.getD t 0 + alpha := by
      have := hle t
      linarith
    exact mul_nonneg (hcomp t w) h1
  have hsum : 0 < ((List.range n).map
      (fun t => comp t w * (cs.getD t 0 - row.getD t 0 + alpha))).sum := by
    have hstep : ∀ t ∈ List.range n,
        comp t w * alpha ≤ comp t w * (cs.getD t 0 - row.getD t 0 + alpha) := by
      intro t _
      apply mul_le_mul_of_nonneg_left _ (hcomp t w)
      have := hle t
      linarith
    have hle2 := List.sum_le_sum hstep
    have heq : ((List.range n).map (fun t => comp t w * alpha)).sum =
        ((List.range n).map (fun t => comp t w)).sum * alpha := by
      rw [← List.sum_map_mul_right]
    have h0 : 0 < ((List.range n).map (fun t => comp t w)).sum * alpha :=
      mul_pos hpos halpha
    rw [← heq] at h0
    exact lt_of_lt_of_le h0 hle2
  refine ⟨normalizeRow_sum _ (ne_of_gt hsum), normalizeRow_nonneg _ hunn, ?_⟩
  unfold updateRow
  rw [normalizeRow_length, List.length_map, List.length_range]

theorem updateStep_rows_good (comp : ℕ → ℕ → ℚ) (n : ℕ) (alpha : ℚ) (cs : List ℚ)
    (hcomp : ∀ t k, 0 ≤ comp t k) (halpha : 0 < alpha)
    (hpos : ∀ w, 0 < ((List.range n).map (fun t => comp t w)).sum) :
    ∀ (doc : List ℕ) (PZS : List (List ℚ)),
      (∀ r ∈ PZS, ∀ t, r.getD t 0 ≤ cs.getD t 0) →
      ∀ r ∈ List.zipWith (updateRow comp n alpha cs) doc PZS,
        r.sum = 1 ∧ (∀ x ∈ r, 0 ≤ x) ∧ r.length = n := by
  intro doc
  induction doc with
  | nil => intro PZS _ r hr; simp at hr
  | cons w doc ih =>
    intro PZS hP r hr
    cases PZS with
    | nil => simp at hr
    | cons row PZS =>
      rw [List.zipWith_cons_cons] at hr
      rcases List.mem_cons.mp hr with h | h
      · rw [h]
        exact updateRow_good comp n alpha cs w row hcomp halpha
          (hP row (List.mem_cons_self row PZS)) (hpos w)
      · exact ih PZS (fun s hs => hP s (List.mem_cons_of_mem row hs)) r h

/-- Shape and sign invariant maintained between iterations. -/
def GoodPZS (n m : ℕ) (PZS : List (List ℚ)) : Prop :=
  PZS.length = m ∧ ∀ r ∈ PZS, r.length = n ∧ ∀ x ∈ r, 0 ≤ x

/-- Invariant after at least one iteration: rows are distributions. -/
def DonePZS (n m : ℕ) (PZS : List (List ℚ)) : Prop :=
  PZS.length = m ∧ ∀ r ∈ PZS, r.length = n ∧ (∀ x ∈ r, 0 ≤ x) ∧ r.sum = 1

theorem done_good (n m : ℕ) (PZS : List (List ℚ)) (h : DonePZS n m PZS) :
    GoodPZS n m PZS :=
  ⟨h.1, fun r hr => ⟨(h.2 r hr).1, (h.2 r hr).2.1⟩⟩

theorem updateStep_done (comp : ℕ → ℕ → ℚ) (n : ℕ) (alpha : ℚ) (doc : List ℕ)
    (PZS : List (List ℚ))
    (hcomp : ∀ t k, 0 ≤ comp t k) (halpha : 0 < alpha)
    (hpos : ∀ w, 0 < ((List.range n).map (fun t => comp t w)).sum)
    (hg : GoodPZS n doc.length PZS) :
    DonePZS n doc.length (updateStep comp n alpha doc PZS) := by
  have hlen : ∀ r ∈ PZS, r.length = n := fun r hr => (hg.2 r hr).1
  have hnn : ∀ r ∈ PZS, ∀ x ∈ r, 0 ≤ x := fun r hr => (hg.2 r hr).2
  constructor
  · unfold updateStep
    rw [List.length_zipWith, hg.1, min_self]
  · intro r hr
    have hr2 := updateStep_rows_good comp n alpha (colSums PZS n) hcomp halpha hpos
      doc PZS (fun s hs t => getD_le_colSums n PZS hlen hnn s hs t) r hr
    exact ⟨hr2.2.2, hr2.2.1, hr2.1⟩

theorem transformLoop_done (comp : ℕ → ℕ → ℚ) (n : ℕ) (alpha tol : ℚ)
    (doc : List ℕ)
    (hcomp : ∀ t k, 0 ≤ comp t k) (halpha : 0 < alpha)
    (hpos : ∀ w, 0 < ((List.range n).map (fun t => comp t w)).sum) :
    ∀ (fuel : ℕ) (PZS : List (List ℚ)), DonePZS n doc.length PZS →
      DonePZS n doc.length (transformLoop comp n alpha tol doc fuel PZS) := by
  intro fuel
  induction fuel with
  | zero => intro PZS h; exact h
  | succ fuel ih =>
    intro PZS h
    have hPd : DonePZS n doc.length (updateStep comp n alpha doc PZS) :=
      updateStep_done comp n alpha doc PZS hcomp halpha hpos (done_good n doc.length PZS h)
    show DonePZS n doc.length
      (if deltaNaive (updateStep comp n alpha doc PZS) PZS < tol
        then updateStep comp n alpha doc PZS
        else transformLoop comp n alpha tol doc fuel (updateStep comp n alpha doc PZS))
    by_cases hd : deltaNaive (updateStep comp n alpha doc PZS) PZS < tol
    · rw [if_pos hd]; exact hPd
    · rw [if_neg hd]; exact ih (updateStep comp n alpha doc PZS) hPd

theorem transformLoop_succ_done (comp : ℕ → ℕ → ℚ) (n : ℕ) (alpha tol : ℚ)
    (doc : List ℕ) (fuel : ℕ) (PZS : List (List ℚ))
    (hcomp : ∀ t k, 0 ≤ comp t k) (halpha : 0 < alpha)
    (hpos : ∀ w, 0 < ((List.range n).map (fun t => comp t w)).sum)
    (hg : GoodPZS n doc.length PZS) :
    DonePZS n doc.length (transformLoop comp n alpha tol doc (fuel + 1) PZS) := by
  have hPd : DonePZS n doc.length (updateStep comp n alpha doc PZS) :=
    updateStep_done comp n alpha doc PZS hcomp halpha hpos hg
  show DonePZS n doc.length
    (if deltaNaive (updateStep comp n alpha doc PZS) PZS < tol
      then updateStep comp n alpha doc PZS
      else transformLoop comp n alpha tol doc fuel (updateStep comp n alpha doc PZS))
  by_cases hd : deltaNaive (updateStep comp n alpha doc PZS) PZS < tol
  · rw [if_pos hd]; exact hPd
  · rw [if_neg hd]
    exact transformLoop_done comp n alpha tol doc hcomp halpha hpos fuel
      (updateStep comp n alpha doc PZS) hPd

theorem sum_map_sum_eq_length (rows : List (List ℚ)) (h : ∀ r ∈ rows, r.sum = 1) :
    (rows.map List.sum).sum = rows.length := by
  induction rows with
  | nil => simp
  | cons r rows ih =>
    simp only [List.map_cons, List.sum_cons, List.length_cons]
    rw [h r (List.mem_cons_self r rows),
      ih (fun s hs => h s (List.mem_cons_of_mem r hs))]
    push_cast
    ring

theorem transformSingle_simplex (comp : ℕ → ℕ → ℚ) (n : ℕ) (alpha tol : ℚ)
    (maxIter : ℕ) (doc : List ℕ)
    (hcomp : ∀ t k, 0 ≤ comp t k) (halpha : 0 < alpha)
    (hpos : ∀ w, 0 < ((List.range n).map (fun t => comp t w)).sum)
    (hdoc : doc ≠ []) :
    (transformSingle comp n alpha tol maxIter doc).sum = 1 ∧
    (∀ x ∈ transformSingle comp n alpha tol maxIter doc, 0 ≤ x) ∧
    (transformSingle comp n alpha tol maxIter doc).length = n := by
  set P := transformLoop comp n alpha tol doc (maxIter + 1)
    (doc.map (fun _ => List.replicate n 0)) with hPdef
  have hunf : transformSingle comp n alpha tol maxIter doc =
      (colSums P n).map (fun x => x / (P.map List.sum).sum) := rfl
  have hg0 : GoodPZS n doc.length (doc.map (fun _ => List.replicate n 0)) := by
    constructor
    · rw [List.length_map]
    · intro r hr
      obtain ⟨w, _, rfl⟩ := List.mem_map.mp hr
      refine ⟨List.length_replicate n 0, ?_⟩
      intro x hx
      rw [List.eq_of_mem_replicate hx]
  have hP : DonePZS n doc.length P :=
    transformLoop_succ_done comp n alpha tol doc maxIter _ hcomp halpha hpos hg0
  have hlen : ∀ r ∈ P, r.length = n := fun r hr => (hP.2 r hr).1
  have hnn : ∀ r ∈ P, ∀ x ∈ r, 0 ≤ x := fun r hr => (hP.2 r hr).2.1
  have hone : ∀ r ∈ P, r.sum = 1 := fun r hr => (hP.2 r hr).2.2
  have htpos : 0 < (P.map List.sum).sum := by
    rw [sum_map_sum_eq_length P hone, hP.1]
    exact_mod_cast List.length_pos.mpr hdoc
  refine ⟨?_, ?_, ?_⟩
  · rw [hunf, sum_map_div, colSums_sum P n hlen, div_self (ne_of_gt htpos)]
  · intro x hx
    rw [hunf] at hx
    obtain ⟨y, hy, rfl⟩ := List.mem_map.mp hx
    exact div_nonneg (colSums_nonneg P n hnn y hy) (le_of_lt htpos)
  · rw [hunf, List.length_map, colSums_length P n hlen]

theorem docOf_ne_nil {α : Type} [LinearOrder α] (snvs : List (α × ℕ)) (g : α)
    (hg : g ∈ groupKeys snvs) : docOf snvs g ≠ [] := by
  unfold groupKeys at hg
  rw [mem_sortedDedup] at hg
  obtain ⟨r, hr, hr1⟩ := List.mem_map.mp hg
  have hc : r.2 ∈ triNucCols snvs := by
    unfold triNucCols
    rw [mem_sortedDedup]
    exact List.mem_map.mpr ⟨r, hr, rfl⟩
  obtain ⟨⟨j, hj⟩, hget⟩ := List.mem_iff_get.mp hc
  have hgj : (triNucCols snvs).getD j 0 = r.2 := by
    rw [List.getD_eq_getElem _ 0 hj, ← hget]
    rfl
  have hcell : 0 < cellCount snvs g ((triNucCols snvs).getD j 0) := by
    rw [hgj]
    unfold cellCount
    rw [List.countP_pos_iff]
    exact ⟨r, hr, by simp [hr1]⟩
  intro hnil
  have hjmem : j ∈ docOf snvs g := by
    unfold docOf
    rw [List.mem_flatten]
    refine ⟨List.replicate (cellCount snvs g ((triNucCols snvs).getD j 0)) j, ?_, ?_⟩
    · exact List.mem_map.mpr ⟨j, List.mem_range.mpr hj, rfl⟩
    · rw [List.mem_replicate]
      exact ⟨Nat.pos_iff_ne_zero.mp hcell, rfl⟩
  rw [hnil] at hjmem
  exact List.not_mem_nil j hjmem

/-- C1: whenever the per-context signature probabilities are non-negative
and every context carries positive total probability mass across the
signatures (true of the COSMIC matrix), every row of the exposure table
returned by `fit_sample_signatures` — one per group passing the
`>100`-count filter — is a non-negative vector over the signatures summing
exactly to `1` (the embedding computes over `ℚ`, so the floating tolerance
of the claim is not needed). -/
theorem fit_rows_are_simplex {α : Type} [LinearOrder α] (snvs : List (α × ℕ))
    (sigProb : ℕ → ℕ → ℚ) (nSig : ℕ)
    (hnn : ∀ c t, 0 ≤ sigProb c t)
    (hpos : ∀ c, 0 < ((List.range nSig).map (fun t => sigProb c t)).sum) :
    ∀ p ∈ fitSampleSignatures snvs sigProb nSig,
      p.2.sum = 1 ∧ (∀ x ∈ p.2, 0 ≤ x) ∧ p.2.length = nSig := by
  intro p hp
  unfold fitSampleSignatures at hp
  by_cases h : groupKeys snvs = []
  · rw [if_pos h] at hp
    simp at hp
  · rw [if_neg h] at hp
    obtain ⟨g, hg, rfl⟩ := List.mem_map.mp hp
    exact transformSingle_simplex (fun t w => sigProb w t) nSig (1 / 100)
      (1 / 10 ^ 16) 1000 (docOf snvs g) (fun t k => hnn k t) (by norm_num)
      (fun w => hpos w) (docOf_ne_nil snvs g hg)

/-- A two-signature probability matrix giving every context the mass
`1/2 + 1/2 = 1`. -/
def sigProbW : ℕ → ℕ → ℚ := fun _ t => if t < 2 then 1 / 2 else 0

set_option maxRecDepth 10000 in
/-- Closed instance of C1: on the 101-SNV single-group input the
hypotheses hold, the fitted table is non-empty, and every row of it is a
probability vector over the two signatures. -/
theorem fit_rows_are_simplex_witness :
    (∀ c t, 0 ≤ sigProbW c t) ∧
    (∀ c, 0 < ((List.range 2).map (fun t => sigProbW c t)).sum) ∧
    fitSampleSignatures snvsSingleContext sigProbW 2 ≠ [] ∧
    (∀ p ∈ fitSampleSignatures snvsSingleContext sigProbW 2,
      p.2.sum = 1 ∧ (∀ x ∈ p.2, 0 ≤ x) ∧ p.2.length = 2) := by
  have h1 : ∀ c t, 0 ≤ sigProbW c t := by
    intro c t
    unfold sigProbW
    by_cases h : t < 2
    · rw [if_pos h]
      norm_num
    · rw [if_neg h]
  have h2 : ∀ c, 0 < ((List.range 2).map (fun t => sigProbW c t)).sum := by
    intro c
    have he : (List.range 2).map (fun t => sigProbW c t) = [1 / 2, 1 / 2] := by
      rfl
    rw [he]
    norm_num
  have h3 : fitSampleSignatures snvsSingleContext sigProbW 2 ≠ [] := by
    unfold fitSampleSignatures
    rw [if_neg (by decide : ¬ groupKeys snvsSingleContext = [])]
    rw [show groupKeys snvsSingleContext = [7] from by decide]
    simp
  exact ⟨h1, h2, h3, fit_rows_are_simplex snvsSingleContext sigProbW 2 h1 h2⟩
